import Mathlib

/-!
Verification of the query-resolution core of a Russian-language meeting
assistant bot (`bot.py`).  The embedding models:

* the date-expression resolver inside `smart_get_meetings` (relative-day
  keywords, named-month phrases `\d{1,2}\s*(января|...)`, numeric phrases
  `\d{1,2}\.\d{1,2}`, year inference, residual-text computation);
* the store queries `get_meetings` (SQL filter + `ORDER BY start_time`) and
  `find_meeting_by_query` (`ORDER BY start_time DESC LIMIT 1`);
* the update flows `update_meeting_summary` and the `update_location` /
  `route` branches of `handle_text`.

Strings are modelled as `List Char`.  Python's `str.lower` is modelled for
ASCII and the Russian alphabet (the only scripts the bot's phrases use);
`\d` is modelled as the ASCII digits and `\s` as ASCII whitespace.  SQLite's
`LIKE` is case-insensitive for ASCII only, which the model reflects via
ASCII-only folding; `%`/`_` wildcards inside a query are not modelled.
Timestamps stay ISO-8601 strings compared lexicographically, exactly как
SQLite compares TEXT with the default BINARY collation on these ASCII
strings.  Python `datetime` values are modelled by their calendar date
(the code only ever uses the date part, the month/year fields, and
whole-day `timedelta` shifts, which in UTC move the date by exactly that
many days).  A raised `ValueError` is modelled as `Except.error`.
-/

namespace AssistantBot

/-- Decidable equality for `Except`, so that concrete runs of the fallible
operations can be checked by `decide`. -/
instance {ε : Type u} {α : Type v} [DecidableEq ε] [DecidableEq α] :
    DecidableEq (Except ε α) := fun x y =>
  match x, y with
  | .error a, .error b =>
    if h : a = b then .isTrue (by rw [h]) else .isFalse (fun hc => by cases hc; exact h rfl)
  | .error _, .ok _ => .isFalse (fun hc => by cases hc)
  | .ok _, .error _ => .isFalse (fun hc => by cases hc)
  | .ok a, .ok b =>
    if h : a = b then .isTrue (by rw [h]) else .isFalse (fun hc => by cases hc; exact h rfl)

/-! ### Characters and strings -/

/-- ASCII digit test, modelling `\d` of the source's regexes. -/
def isDigitChar (c : Char) : Bool :=
  '0' ≤ c && c ≤ '9'

/-- Numeric value of an ASCII digit, modelling Python `int` on a digit. -/
def digVal (c : Char) : Nat :=
  c.toNat - '0'.toNat

/-- ASCII whitespace, modelling `\s` of the source's regexes and `str.strip`. -/
def isSpaceChar (c : Char) : Bool :=
  c = ' ' || c = '\t' || c = '\n' || c = '\r' || c = '\x0b' || c = '\x0c'

/-- Python `str.lower`, modelled for ASCII letters and the Russian alphabet
(uppercase А..Я and Ё map to their lowercase forms; everything else is
unchanged). -/
def ruLower (c : Char) : Char :=
  if 'A' ≤ c ∧ c ≤ 'Z' then Char.ofNat (c.toNat + 32)
  else if 'А' ≤ c ∧ c ≤ 'Я' then Char.ofNat (c.toNat + 32)
  else if c = 'Ё' then 'ё'
  else c

/-- SQLite `LIKE` case folding: ASCII letters only (SQLite's `LIKE` is
case-insensitive only for characters in the ASCII range). -/
def asciiLower (c : Char) : Char :=
  if 'A' ≤ c ∧ c ≤ 'Z' then Char.ofNat (c.toNat + 32)
  else c

/-- `startsWith pat s` holds when `pat` is an initial segment of `s`. -/
def startsWith : List Char → List Char → Bool
  | [], _ => true
  | _ :: _, [] => false
  | a :: as, b :: bs => a == b && startsWith as bs

/-- `containsSub pat s` models Python's `pat in s` substring test. -/
def containsSub (pat : List Char) : List Char → Bool
  | [] => startsWith pat []
  | c :: rest => startsWith pat (c :: rest) || containsSub pat rest

/-- SQLite `x LIKE '%q%'` on these inputs: substring containment after
ASCII-only case folding. -/
def sqliteLikeContains (q hay : List Char) : Bool :=
  containsSub (q.map asciiLower) (hay.map asciiLower)

/-- Python `str.strip()`: whitespace removed from both ends. -/
def stripChars (s : List Char) : List Char :=
  ((s.dropWhile isSpaceChar).reverse.dropWhile isSpaceChar).reverse

/-- Lexicographic strict comparison of strings by code point, modelling
SQLite's BINARY collation on the ASCII timestamp strings the store holds. -/
def ltLex : List Char → List Char → Bool
  | [], [] => false
  | [], _ :: _ => true
  | _ :: _, [] => false
  | a :: as, b :: bs => if a < b then true else if b < a then false else ltLex as bs

/-- Lexicographic `≤` on strings, as `start_time >= ?` compares in SQLite. -/
def leLex (a b : List Char) : Bool :=
  !(ltLex b a)

/-! ### Calendar dates -/

/-- Calendar date in the proleptic Gregorian calendar, as `datetime.date`. -/
structure Date where
  year : Nat
  month : Nat
  day : Nat
deriving DecidableEq, Repr

/-- Gregorian leap-year rule, as used by Python's `datetime`. -/
def isLeapYear (y : Nat) : Bool :=
  (y % 4 == 0 && y % 100 != 0) || y % 400 == 0

/-- Number of days in a month of a given year. -/
def daysInMonth (y m : Nat) : Nat :=
  if m == 2 then (if isLeapYear y then 29 else 28)
  else if m == 4 || m == 6 || m == 9 || m == 11 then 30
  else 31

/-- Validity of a `datetime(year, month, day)` construction: Python raises
`ValueError` outside these bounds (`MINYEAR = 1`, `MAXYEAR = 9999`). -/
def isValidDate (y m d : Nat) : Bool :=
  1 ≤ y && y ≤ 9999 && 1 ≤ m && m ≤ 12 && 1 ≤ d && d ≤ daysInMonth y m

/-- The calendar day after `dt`. -/
def nextDay (dt : Date) : Date :=
  if dt.day < daysInMonth dt.year dt.month then ⟨dt.year, dt.month, dt.day + 1⟩
  else if dt.month < 12 then ⟨dt.year, dt.month + 1, 1⟩
  else ⟨dt.year + 1, 1, 1⟩

/-- `dt + timedelta(days = n)` at the date level: in UTC a whole-day shift
moves the calendar date by exactly that many days. -/
def addDays (dt : Date) : Nat → Date
  | 0 => dt
  | n + 1 => nextDay (addDays dt n)

/-- ASCII digit character for `n < 10`. -/
def digitChar (n : Nat) : Char :=
  Char.ofNat ('0'.toNat + n)

/-- Two-digit zero-padded decimal, as `%m` / `%d` of `strftime`. -/
def pad2 (n : Nat) : List Char :=
  [digitChar ((n / 10) % 10), digitChar (n % 10)]

/-- Four-digit zero-padded decimal, as `%Y` of `strftime` for in-range years. -/
def pad4 (n : Nat) : List Char :=
  [digitChar ((n / 1000) % 10), digitChar ((n / 100) % 10),
   digitChar ((n / 10) % 10), digitChar (n % 10)]

/-- `target_date.strftime("%Y-%m-%dT00:00:00")`. -/
def fmtMidnight (d : Date) : List Char :=
  pad4 d.year ++ ("-".data) ++ pad2 d.month ++ ("-".data) ++ pad2 d.day ++ ("T00:00:00".data)

/-! ### The month table and the date regexes -/

/-- The `RU_MONTHS` dictionary of `bot.py`: nominative and genitive forms of
the twelve Russian month names, each mapped to its 1-based month index. -/
def RU_MONTHS : List (List Char × Nat) :=
  [("январь".data, 1), ("января".data, 1), ("февраль".data, 2), ("февраля".data, 2),
   ("март".data, 3), ("марта".data, 3), ("апрель".data, 4), ("апреля".data, 4),
   ("май".data, 5), ("мая".data, 5), ("июнь".data, 6), ("июня".data, 6),
   ("июль".data, 7), ("июля".data, 7), ("август".data, 8), ("августа".data, 8),
   ("сентябрь".data, 9), ("сентября".data, 9), ("октябрь".data, 10), ("октября".data, 10),
   ("ноябрь".data, 11), ("ноября".data, 11), ("декабрь".data, 12), ("декабря".data, 12)]

/-- `RU_MONTHS.get(key, default)`. -/
def ruMonthsGet (key : List Char) (dflt : Nat) : Nat :=
  match RU_MONTHS.find? (fun p => p.1 == key) with
  | some p => p.2
  | none => dflt

/-- The month-name alternation of the date regexes, in the source's order:
`января|февраля|марта|апреля|мая|июня|июля|августа|сентября|октября|ноября|декабря`. -/
def GEN_MONTH_NAMES : List (List Char) :=
  ["января".data, "февраля".data, "марта".data, "апреля".data, "мая".data, "июня".data,
   "июля".data, "августа".data, "сентября".data, "октября".data, "ноября".data, "декабря".data]

/-- Greedy `\s*`: the count of leading whitespace and the remaining input. -/
def dropCountSpaces : List Char → Nat × List Char
  | [] => (0, [])
  | c :: rest =>
    if isSpaceChar c then
      let (n, r) := dropCountSpaces rest
      (n + 1, r)
    else (0, c :: rest)

/-- First month name of the alternation matching at the head of `s`. -/
def findMonthAt (s : List Char) : Option (List Char) :=
  GEN_MONTH_NAMES.find? (fun name => startsWith name s)

/-- Match `\s*(января|…|декабря)` at the head of `s`, returning the matched
month name and the total number of characters consumed.  Backtracking into
`\s*` can never help because no month name begins with whitespace. -/
def matchMonthTail (s : List Char) : Option (List Char × Nat) :=
  let (k, rest) := dropCountSpaces s
  match findMonthAt rest with
  | some name => some (name, k + name.length)
  | none => none

/-- The greedy two-digit attempt of `(\d{1,2})\s*(месяц)`: `c1` is an
already-checked digit, `rest1` the input after it. -/
def matchNamedTwoDigit (c1 : Char) (rest1 : List Char) : Option (Nat × List Char × Nat) :=
  match rest1 with
  | c2 :: rest2 =>
    if isDigitChar c2 then
      match matchMonthTail rest2 with
      | some (name, tl) => some (10 * digVal c1 + digVal c2, name, 2 + tl)
      | none => none
    else none
  | [] => none

/-- Match `(\d{1,2})\s*(января|…|декабря)` at the head of `s`, with the
greedy two-digit attempt first and a one-digit backtrack, exactly as the
regex engine proceeds.  Returns `(day, month name, match length)`. -/
def matchNamedAt (s : List Char) : Option (Nat × List Char × Nat) :=
  match s with
  | [] => none
  | c1 :: rest1 =>
    if isDigitChar c1 then
      match matchNamedTwoDigit c1 rest1 with
      | some r => some r
      | none =>
        match matchMonthTail rest1 with
        | some (name, tl) => some (digVal c1, name, 1 + tl)
        | none => none
    else none

/-- Match a greedy `\d{1,2}` at the head of `s`: value and length. -/
def matchDigits12 (s : List Char) : Option (Nat × Nat) :=
  match s with
  | c1 :: c2 :: _ =>
    if isDigitChar c1 then
      if isDigitChar c2 then some (10 * digVal c1 + digVal c2, 2)
      else some (digVal c1, 1)
    else none
  | [c1] => if isDigitChar c1 then some (digVal c1, 1) else none
  | [] => none

/-- The greedy two-digit attempt of `(\d{1,2})\.(\d{1,2})`: `c1` is an
already-checked digit, `rest1` the input after it. -/
def matchNumTwoDigit (c1 : Char) (rest1 : List Char) : Option (Nat × Nat × Nat) :=
  match rest1 with
  | c2 :: dot :: rest3 =>
    if isDigitChar c2 && dot == '.' then
      match matchDigits12 rest3 with
      | some (m, l2) => some (10 * digVal c1 + digVal c2, m, 3 + l2)
      | none => none
    else none
  | _ => none

/-- Match `(\d{1,2})\.(\d{1,2})` at the head of `s`, greedy first group with
one-digit backtrack.  Returns `(day, month, match length)`. -/
def matchNumAt (s : List Char) : Option (Nat × Nat × Nat) :=
  match s with
  | [] => none
  | c1 :: rest1 =>
    if isDigitChar c1 then
      match matchNumTwoDigit c1 rest1 with
      | some r => some r
      | none =>
        match rest1 with
        | dot :: rest2 =>
          if dot == '.' then
            match matchDigits12 rest2 with
            | some (m, l2) => some (digVal c1, m, 2 + l2)
            | none => none
          else none
        | [] => none
    else none

/-- `re.search` of the named-month regex: leftmost match, scanning positions
left to right.  Returns the day number and the matched month name. -/
def searchNamed : List Char → Option (Nat × List Char)
  | [] => none
  | c :: rest =>
    match matchNamedAt (c :: rest) with
    | some (d, name, _) => some (d, name)
    | none => searchNamed rest

/-- `re.search` of the numeric `D.M` regex: leftmost match. -/
def searchNum : List Char → Option (Nat × Nat)
  | [] => none
  | c :: rest =>
    match matchNumAt (c :: rest) with
    | some (d, m, _) => some (d, m)
    | none => searchNum rest

/-- One alternation step of the removal regex
`(завтра|сегодня|послезавтра|\d{1,2}\s*(?:января|…|декабря)|\d{1,2}\.\d{1,2})`
tried at the head of `s`; alternatives in the source's order.  Returns the
length of the match. -/
def matchUnionAt (s : List Char) : Option Nat :=
  if startsWith ("завтра".data) s then some ("завтра".data).length
  else if startsWith ("сегодня".data) s then some ("сегодня".data).length
  else if startsWith ("послезавтра".data) s then some ("послезавтра".data).length
  else
    match matchNamedAt s with
    | some (_, _, l) => some l
    | none =>
      match matchNumAt s with
      | some (_, _, l) => some l
      | none => none

/-- `re.sub(union_pattern, '', s, count=1)` restricted to its effect: remove
the leftmost match of the removal regex; `none` when nothing matches. -/
def removeFirstUnion : List Char → Option (List Char)
  | [] => none
  | c :: rest =>
    match matchUnionAt (c :: rest) with
    | some l => some ((c :: rest).drop l)
    | none => (removeFirstUnion rest).map (fun r => c :: r)

/-! ### The date-expression resolver (bot.py lines 128–155) -/

/-- The `target_date` computation of `smart_get_meetings` on the lowercased
query: the relative-day keyword chain, then the named-month regex (whose
`datetime(...)` construction can raise, modelled as `Except.error`), then
the numeric `D.M` regex (whose `ValueError` is caught and yields no date). -/
def resolveTarget (lower_query : List Char) (now : Date) : Except Unit (Option Date) :=
  let target1 : Option Date :=
    if containsSub ("завтра".data) lower_query then some (addDays now 1)
    else if containsSub ("сегодня".data) lower_query then some now
    else if containsSub ("послезавтра".data) lower_query then some (addDays now 2)
    else none
  match target1 with
  | some t => .ok (some t)
  | none =>
    match searchNamed lower_query with
    | some (day, month_str) =>
      let month := ruMonthsGet month_str now.month
      let year := if month ≥ now.month then now.year else now.year + 1
      if isValidDate year month day then .ok (some ⟨year, month, day⟩)
      else .error ()
    | none =>
      match searchNum lower_query with
      | some (day, month) =>
        let year := if month ≥ now.month then now.year else now.year + 1
        if isValidDate year month day then .ok (some ⟨year, month, day⟩)
        else .ok none
      | none => .ok none

/-- The resolver contract of the spec (section 4.1): lowercase the phrase,
detect a date, and compute the residual text (`none` when, after removing
the first match of the removal regex and stripping, nothing remains). -/
def dateResolve (q : List Char) (now : Date) : Except Unit (Option (Date × Option (List Char))) :=
  let lower_query := q.map ruLower
  match resolveTarget lower_query now with
  | .error e => .error e
  | .ok none => .ok none
  | .ok (some t) =>
    let residual := stripChars ((removeFirstUnion lower_query).getD lower_query)
    .ok (some (t, if residual = [] then none else some residual))

/-! ### The meeting store -/

/-- One row of the `meetings` table (the surrogate `id` column is never read
by the query logic and is omitted; insertion order of the list plays its
role for tie-breaking). -/
structure Meeting where
  user_id : Nat
  summary : List Char
  start_time : List Char
  duration_minutes : Nat
  location : Option (List Char)
deriving DecidableEq, Repr

/-- `summary LIKE '%q%' OR location LIKE '%q%'`; a NULL location never
matches (SQL three-valued logic makes the disjunct NULL, hence not true). -/
def likeRow (q : List Char) (m : Meeting) : Bool :=
  sqliteLikeContains q m.summary ||
    (match m.location with
     | some l => sqliteLikeContains q l
     | none => false)

/-- The WHERE clause built by `get_meetings`: the `user_id` equality always,
then each optional conjunct guarded by Python truthiness (`if time_min:` and
friends — `None` and the empty string both skip the conjunct). -/
def rowMatches (user_id : Nat) (time_min time_max : Option (List Char))
    (query : Option (List Char)) (m : Meeting) : Bool :=
  m.user_id == user_id
  && (match time_min with
      | some t => t = [] || leLex t m.start_time
      | none => true)
  && (match time_max with
      | some t => t = [] || ltLex m.start_time t
      | none => true)
  && (match query with
      | some q => q = [] || likeRow q m
      | none => true)

/-- `a ≤ b` on rows by start time: the `ORDER BY start_time` order. -/
def startLe (a b : Meeting) : Prop :=
  leLex a.start_time b.start_time = true

/-- `a ≥ b` on rows by start time: the `ORDER BY start_time DESC` order. -/
def startGe (a b : Meeting) : Prop :=
  leLex b.start_time a.start_time = true

instance : DecidableRel startLe := fun a b => by
  unfold startLe; infer_instance

instance : DecidableRel startGe := fun a b => by
  unfold startGe; infer_instance

/-- `get_meetings`: `SELECT ... WHERE ... ORDER BY start_time`.  The model
keeps whole rows (the SQL projects four columns of them).  A stable sort
models the unspecified order of equal keys by insertion order. -/
def get_meetings (store : List Meeting) (user_id : Nat)
    (time_min time_max : Option (List Char)) (query : Option (List Char)) : List Meeting :=
  (store.filter (rowMatches user_id time_min time_max query)).insertionSort startLe

/-- The event dictionary built from a row by `find_meeting_by_query` and the
route fallback: a NULL location becomes the placeholder text. -/
structure EventInfo where
  summary : List Char
  location : List Char
  start : List Char
deriving DecidableEq, Repr

/-- Conversion of a row to the event dictionary (`location or 'Адрес не
указан'`; the `datetime.fromisoformat` conversion keeps the timestamp's
value and is modelled by keeping the string). -/
def toEvent (m : Meeting) : EventInfo :=
  ⟨m.summary, m.location.getD ("Адрес не указан".data), m.start_time⟩

/-- `find_meeting_by_query`: `SELECT ... WHERE user_id = ? AND (summary LIKE
? OR location LIKE ?) ORDER BY start_time DESC LIMIT 1`. -/
def find_meeting_by_query (store : List Meeting) (user_id : Nat) (query : List Char) :
    Option EventInfo :=
  match (store.filter (fun m => m.user_id == user_id && likeRow query m)).insertionSort startGe with
  | [] => none
  | m :: _ => some (toEvent m)

/-! ### Smart lookup (bot.py lines 126–164) -/

/-- `smart_get_meetings`: when a query phrase is present and truthy, run the
date detection on its lowercased form; a resolved date overwrites
`time_min`/`time_max` with the day interval and replaces the query by the
stripped residual (`None` when empty); the named-month path can raise. -/
def smart_get_meetings (store : List Meeting) (user_id : Nat)
    (query : Option (List Char)) (time_min time_max : Option (List Char)) (now : Date) :
    Except Unit (List Meeting) :=
  match query with
  | none => .ok (get_meetings store user_id time_min time_max none)
  | some q =>
    if q = [] then .ok (get_meetings store user_id time_min time_max (some q))
    else
      let lower_query := q.map ruLower
      match resolveTarget lower_query now with
      | .error e => .error e
      | .ok none => .ok (get_meetings store user_id time_min time_max (some q))
      | .ok (some target) =>
        let tmin := fmtMidnight target
        let tmax := fmtMidnight (nextDay target)
        let q2 := stripChars ((removeFirstUnion lower_query).getD lower_query)
        .ok (get_meetings store user_id (some tmin) (some tmax)
              (if q2 = [] then none else some q2))

/-! ### Update and routing flows -/

/-- `update_meeting_summary`: resolve candidates through the smart lookup,
then apply the zero/one/many policy; the single-candidate case runs
`UPDATE meetings SET summary = ? WHERE user_id = ? AND summary = ? AND
start_time = ?`.  The returned triple is (success flag, candidate list for
disambiguation, resulting store state). -/
def update_meeting_summary (store : List Meeting) (user_id : Nat)
    (old_query new_summary : List Char) (now : Date) :
    Except Unit (Bool × Option (List Meeting) × List Meeting) :=
  match smart_get_meetings store user_id (some old_query) none none now with
  | .error e => .error e
  | .ok [] => .ok (false, none, store)
  | .ok [m0] => .ok (true, none, store.map (fun m =>
      if m.user_id == user_id && m.summary == m0.summary && m.start_time == m0.start_time
      then { m with summary := new_summary } else m))
  | .ok meetings => .ok (false, some meetings, store)

/-- Outcome of the `update_location` branch of `handle_text`. -/
inductive UpdateOutcome where
  | notFound
  | updated (m0 : Meeting)
  | ambiguous (meetings : List Meeting)
deriving DecidableEq, Repr

/-- The `update_location` branch of `handle_text`: the same zero/one/many
policy, with `update_meeting_location` run only in the single-candidate
case (`UPDATE meetings SET location = ? WHERE user_id = ? AND summary = ?
AND start_time = ?`). -/
def update_location_flow (store : List Meeting) (user_id : Nat)
    (query loc : List Char) (now : Date) :
    Except Unit (UpdateOutcome × List Meeting) :=
  match smart_get_meetings store user_id (some query) none none now with
  | .error e => .error e
  | .ok [] => .ok (.notFound, store)
  | .ok [m0] => .ok (.updated m0, store.map (fun m =>
      if m.user_id == user_id && m.summary == m0.summary && m.start_time == m0.start_time
      then { m with location := some loc } else m))
  | .ok meetings => .ok (.ambiguous meetings, store)

/-- The `route` / `get_location` branch of `handle_text`: first
`find_meeting_by_query`, and only if that is `None` the smart-lookup
fallback taking `meetings[0]` (ascending start-time order). -/
def route_flow (store : List Meeting) (user_id : Nat) (query : List Char) (now : Date) :
    Except Unit (Option EventInfo) :=
  match find_meeting_by_query store user_id query with
  | some event => .ok (some event)
  | none =>
    match smart_get_meetings store user_id (some query) none none now with
    | .error e => .error e
    | .ok [] => .ok none
    | .ok (m :: _) => .ok (some (toEvent m))

/-! ### Order facts about the lexicographic comparison -/

theorem ltLex_irrefl (a : List Char) : ltLex a a = false := by
  induction a with
  | nil => rfl
  | cons c cs ih => simp [ltLex, lt_irrefl, ih]

theorem ltLex_trans {a b c : List Char} (hab : ltLex a b = true) (hbc : ltLex b c = true) :
    ltLex a c = true := by
  induction a generalizing b c with
  | nil =>
    cases b with
    | nil => simp [ltLex] at hab
    | cons y ys =>
      cases c with
      | nil => simp [ltLex] at hbc
      | cons z zs => simp [ltLex]
  | cons x xs ih =>
    cases b with
    | nil => simp [ltLex] at hab
    | cons y ys =>
      cases c with
      | nil => simp [ltLex] at hbc
      | cons z zs =>
        simp only [ltLex] at hab hbc ⊢
        rcases lt_trichotomy x y with hxy | hxy | hxy
        · rcases lt_trichotomy y z with hyz | hyz | hyz
          · simp [lt_trans hxy hyz]
          · subst hyz; simp [hxy]
          · rw [if_neg (asymm hyz), if_pos hyz] at hbc; exact absurd hbc (by simp)
        · subst hxy
          rcases lt_trichotomy x z with hyz | hyz | hyz
          · simp [hyz]
          · subst hyz
            simp only [lt_irrefl, if_false] at hab hbc ⊢
            exact ih hab hbc
          · rw [if_neg (asymm hyz), if_pos hyz] at hbc; exact absurd hbc (by simp)
        · rw [if_neg (asymm hxy), if_pos hxy] at hab; exact absurd hab (by simp)

theorem eq_of_ltLex_false {a b : List Char} (hab : ltLex a b = false)
    (hba : ltLex b a = false) : a = b := by
  induction a generalizing b with
  | nil =>
    cases b with
    | nil => rfl
    | cons y ys => simp [ltLex] at hab
  | cons x xs ih =>
    cases b with
    | nil => simp [ltLex] at hba
    | cons y ys =>
      simp only [ltLex] at hab hba
      rcases lt_trichotomy x y with hxy | hxy | hxy
      · rw [if_pos hxy] at hab; exact absurd hab (by simp)
      · subst hxy
        simp only [lt_irrefl, if_false] at hab hba
        rw [ih hab hba]
      · rw [if_pos hxy] at hba; exact absurd hba (by simp)

theorem leLex_refl (a : List Char) : leLex a a = true := by
  simp [leLex, ltLex_irrefl]

theorem leLex_total (a b : List Char) : leLex a b = true ∨ leLex b a = true := by
  simp only [leLex, Bool.not_eq_true']
  rcases h : ltLex b a with _ | _
  · exact Or.inl rfl
  · right
    rcases h2 : ltLex a b with _ | _
    · rfl
    · have := ltLex_trans h h2
      rw [ltLex_irrefl] at this
      exact absurd this (by simp)

theorem leLex_trans' {a b c : List Char} (hab : leLex a b = true) (hbc : leLex b c = true) :
    leLex a c = true := by
  simp only [leLex, Bool.not_eq_true'] at hab hbc ⊢
  rcases h : ltLex c a with _ | _
  · rfl
  · exfalso
    rcases h2 : ltLex a b with _ | _
    · have hba := eq_of_ltLex_false h2 hab
      subst hba
      rw [h] at hbc
      simp at hbc
    · have := ltLex_trans h h2
      rw [this] at hbc
      simp at hbc

instance : IsTotal Meeting startLe :=
  ⟨fun a b => leLex_total a.start_time b.start_time⟩

instance : IsTrans Meeting startLe :=
  ⟨fun _ _ _ hab hbc => leLex_trans' hab hbc⟩

instance : IsTotal Meeting startGe :=
  ⟨fun a b => (leLex_total b.start_time a.start_time)⟩

instance : IsTrans Meeting startGe :=
  ⟨fun _ _ _ hab hbc => leLex_trans' hbc hab⟩

/-! ### Store-query helper lemmas -/

theorem mem_get_meetings {store : List Meeting} {user_id : Nat}
    {time_min time_max query : Option (List Char)} {m : Meeting} :
    m ∈ get_meetings store user_id time_min time_max query ↔
      m ∈ store ∧ rowMatches user_id time_min time_max query m = true := by
  simp [get_meetings, List.mem_filter]

theorem get_meetings_sorted (store : List Meeting) (user_id : Nat)
    (time_min time_max query : Option (List Char)) :
    (get_meetings store user_id time_min time_max query).Pairwise startLe :=
  List.sorted_insertionSort startLe _

theorem smart_get_meetings_sorted {store : List Meeting} {user_id : Nat}
    {query : Option (List Char)} {time_min time_max : Option (List Char)} {now : Date}
    {ms : List Meeting}
    (h : smart_get_meetings store user_id query time_min time_max now = .ok ms) :
    ms.Pairwise startLe := by
  unfold smart_get_meetings at h
  split at h
  · cases h; exact get_meetings_sorted ..
  · split at h
    · cases h; exact get_meetings_sorted ..
    · dsimp only at h
      split at h
      · cases h
      · cases h; exact get_meetings_sorted ..
      · cases h; exact get_meetings_sorted ..

/-! ### Facts about the pattern matchers -/

theorem matchNamedTwoDigit_pos {c1 : Char} {rest1 : List Char} {d : Nat}
    {name : List Char} {l : Nat} (h : matchNamedTwoDigit c1 rest1 = some (d, name, l)) :
    1 ≤ l := by
  unfold matchNamedTwoDigit at h
  split at h
  · split at h
    · split at h
      · cases h; omega
      · cases h
    · cases h
  · cases h

theorem matchNamedAt_pos {s : List Char} {d : Nat} {name : List Char} {l : Nat}
    (h : matchNamedAt s = some (d, name, l)) : 1 ≤ l := by
  unfold matchNamedAt at h
  split at h
  · cases h
  · split at h
    · split at h
      · cases h; exact matchNamedTwoDigit_pos (by assumption)
      · split at h
        · cases h; omega
        · cases h
    · cases h

theorem matchNumTwoDigit_pos {c1 : Char} {rest1 : List Char} {d m l : Nat}
    (h : matchNumTwoDigit c1 rest1 = some (d, m, l)) : 1 ≤ l := by
  unfold matchNumTwoDigit at h
  split at h
  · split at h
    · split at h
      · cases h; omega
      · cases h
    · cases h
  · cases h

theorem matchNumAt_pos {s : List Char} {d m l : Nat}
    (h : matchNumAt s = some (d, m, l)) : 1 ≤ l := by
  unfold matchNumAt at h
  split at h
  · cases h
  · split at h
    · split at h
      · cases h; exact matchNumTwoDigit_pos (by assumption)
      · split at h
        · split at h
          · split at h
            · cases h; omega
            · cases h
          · cases h
        · cases h
    · cases h

theorem matchUnionAt_pos {s : List Char} {l : Nat} (h : matchUnionAt s = some l) :
    1 ≤ l := by
  unfold matchUnionAt at h
  split at h
  · cases h; decide
  · split at h
    · cases h; decide
    · split at h
      · cases h; decide
      · split at h
        · cases h; exact matchNamedAt_pos (by assumption)
        · split at h
          · cases h; exact matchNumAt_pos (by assumption)
          · cases h

theorem matchUnionAt_nil : matchUnionAt [] = none := by decide

/-- Decomposition of a failed alternation step: none of the five
alternatives matches at this position. -/
theorem matchUnionAt_eq_none {s : List Char} (h : matchUnionAt s = none) :
    startsWith ("завтра".data) s = false ∧ startsWith ("сегодня".data) s = false ∧
    startsWith ("послезавтра".data) s = false ∧ matchNamedAt s = none ∧
    matchNumAt s = none := by
  unfold matchUnionAt at h
  split at h
  · cases h
  · split at h
    · cases h
    · split at h
      · cases h
      · refine ⟨by simp_all, by simp_all, by simp_all, ?_, ?_⟩
        · split at h
          · cases h
          · assumption
        · split at h
          · cases h
          · split at h
            · cases h
            · assumption

theorem removeFirstUnion_none {s : List Char} (h : removeFirstUnion s = none) :
    ∀ j, matchUnionAt (s.drop j) = none := by
  induction s with
  | nil => intro j; rw [List.drop_nil]; exact matchUnionAt_nil
  | cons c rest ih =>
    intro j
    unfold removeFirstUnion at h
    split at h
    · cases h
    · cases j with
      | zero => assumption
      | succ j' =>
        rw [List.drop_succ_cons]
        exact ih (by
          rcases h2 : removeFirstUnion rest with _ | r
          · rfl
          · rw [h2] at h; cases h) j'

/-- The removal regex removes the match that is first in the string by
position: characterization of `removeFirstUnion`. -/
theorem removeFirstUnion_spec {s r : List Char} (h : removeFirstUnion s = some r) :
    ∃ i l, matchUnionAt (s.drop i) = some l ∧
      (∀ j, j < i → matchUnionAt (s.drop j) = none) ∧
      r = s.take i ++ s.drop (i + l) := by
  induction s generalizing r with
  | nil => cases h
  | cons c rest ih =>
    unfold removeFirstUnion at h
    split at h
    · rename_i l hl
      cases h
      exact ⟨0, l, by simpa using hl, fun j hj => absurd hj (by omega), by simp⟩
    · rename_i hnone
      rcases h2 : removeFirstUnion rest with _ | r'
      · rw [h2] at h; cases h
      · rw [h2] at h
        cases h
        obtain ⟨i, l, h3, h4, h5⟩ := ih h2
        refine ⟨i + 1, l, by simpa using h3, ?_, ?_⟩
        · intro j hj
          cases j with
          | zero => exact hnone
          | succ j' => rw [List.drop_succ_cons]; exact h4 j' (by omega)
        · have hsh : i + 1 + l = (i + l) + 1 := by omega
          simp [h5, List.take_succ_cons, hsh, List.drop_succ_cons]

theorem removeFirstUnion_length {s r : List Char} (h : removeFirstUnion s = some r) :
    r.length < s.length := by
  induction s generalizing r with
  | nil => cases h
  | cons c rest ih =>
    unfold removeFirstUnion at h
    split at h
    · rename_i l hl
      cases h
      have hl1 : 1 ≤ l := matchUnionAt_pos hl
      simp only [List.length_drop, List.length_cons]
      omega
    · rcases h2 : removeFirstUnion rest with _ | r'
      · rw [h2] at h; cases h
      · rw [h2] at h
        cases h
        have := ih h2
        simp only [List.length_cons]
        omega

/-! ### From detection to removal: every detected pattern gives the removal
regex something to match -/

theorem containsSub_exists {pat s : List Char} (h : containsSub pat s = true) :
    ∃ j, startsWith pat (s.drop j) = true := by
  induction s with
  | nil => exact ⟨0, h⟩
  | cons c rest ih =>
    unfold containsSub at h
    rcases Bool.or_eq_true_iff.mp h with h1 | h1
    · exact ⟨0, h1⟩
    · obtain ⟨j, hj⟩ := ih h1
      exact ⟨j + 1, by simpa using hj⟩

theorem searchNamed_exists {s : List Char} {d : Nat} {name : List Char}
    (h : searchNamed s = some (d, name)) :
    ∃ j l, matchNamedAt (s.drop j) = some (d, name, l) := by
  induction s with
  | nil => cases h
  | cons c rest ih =>
    unfold searchNamed at h
    split at h
    · rename_i d' name' l' hm
      cases h
      exact ⟨0, l', by simpa using hm⟩
    · obtain ⟨j, l, hj⟩ := ih h
      exact ⟨j + 1, l, by simpa using hj⟩

theorem searchNum_exists {s : List Char} {d m : Nat}
    (h : searchNum s = some (d, m)) :
    ∃ j l, matchNumAt (s.drop j) = some (d, m, l) := by
  induction s with
  | nil => cases h
  | cons c rest ih =>
    unfold searchNum at h
    split at h
    · rename_i d' m' l' hm
      cases h
      exact ⟨0, l', by simpa using hm⟩
    · obtain ⟨j, l, hj⟩ := ih h
      exact ⟨j + 1, l, by simpa using hj⟩

/-- Cases under which the resolver detects a date: one of the three keyword
containment tests succeeded, or one of the two regex searches matched. -/
theorem resolveTarget_cases {lq : List Char} {now : Date} {t : Date}
    (h : resolveTarget lq now = .ok (some t)) :
    containsSub ("завтра".data) lq = true ∨ containsSub ("сегодня".data) lq = true ∨
    containsSub ("послезавтра".data) lq = true ∨
    (∃ d name, searchNamed lq = some (d, name)) ∨
    (∃ d m, searchNum lq = some (d, m)) := by
  unfold resolveTarget at h
  by_cases h1 : containsSub ("завтра".data) lq = true
  · exact Or.inl h1
  · by_cases h2 : containsSub ("сегодня".data) lq = true
    · exact Or.inr (Or.inl h2)
    · by_cases h3 : containsSub ("послезавтра".data) lq = true
      · exact Or.inr (Or.inr (Or.inl h3))
      · simp only [h1, h2, h3, Bool.false_eq_true, if_false] at h
        rcases h4 : searchNamed lq with _ | ⟨d, name⟩
        · rcases h5 : searchNum lq with _ | ⟨d, m⟩
          · rw [h4, h5] at h; cases h
          · exact Or.inr (Or.inr (Or.inr (Or.inr ⟨d, m, rfl⟩)))
        · exact Or.inr (Or.inr (Or.inr (Or.inl ⟨d, name, rfl⟩)))

/-- At any position where one of the five alternatives matches, the
alternation as a whole matches. -/
theorem matchUnionAt_isSome_of_any {s : List Char}
    (h : startsWith ("завтра".data) s = true ∨ startsWith ("сегодня".data) s = true ∨
      startsWith ("послезавтра".data) s = true ∨ (∃ x, matchNamedAt s = some x) ∨
      (∃ x, matchNumAt s = some x)) :
    matchUnionAt s ≠ none := by
  intro hn
  obtain ⟨h1, h2, h3, h4, h5⟩ := matchUnionAt_eq_none hn
  rcases h with h | h | h | ⟨x, h⟩ | ⟨x, h⟩
  · rw [h1] at h; cases h
  · rw [h2] at h; cases h
  · rw [h3] at h; cases h
  · rw [h4] at h; cases h
  · rw [h5] at h; cases h

/-- When the resolver has detected a date in the lowercased phrase, the
removal regex finds a match to delete. -/
theorem removeFirstUnion_isSome_of_resolve {lq : List Char} {now : Date} {t : Date}
    (h : resolveTarget lq now = .ok (some t)) :
    ∃ r, removeFirstUnion lq = some r := by
  rcases hr : removeFirstUnion lq with _ | r
  · exfalso
    have hnone := removeFirstUnion_none hr
    rcases resolveTarget_cases h with h1 | h1 | h1 | ⟨d, name, h1⟩ | ⟨d, m, h1⟩
    · obtain ⟨j, hj⟩ := containsSub_exists h1
      exact matchUnionAt_isSome_of_any (Or.inl hj) (hnone j)
    · obtain ⟨j, hj⟩ := containsSub_exists h1
      exact matchUnionAt_isSome_of_any (Or.inr (Or.inl hj)) (hnone j)
    · obtain ⟨j, hj⟩ := containsSub_exists h1
      exact matchUnionAt_isSome_of_any (Or.inr (Or.inr (Or.inl hj))) (hnone j)
    · obtain ⟨j, l, hj⟩ := searchNamed_exists h1
      exact matchUnionAt_isSome_of_any (Or.inr (Or.inr (Or.inr (Or.inl ⟨_, hj⟩)))) (hnone j)
    · obtain ⟨j, l, hj⟩ := searchNum_exists h1
      exact matchUnionAt_isSome_of_any (Or.inr (Or.inr (Or.inr (Or.inr ⟨_, hj⟩)))) (hnone j)
  · exact ⟨r, rfl⟩

theorem dropWhile_length_le (p : Char → Bool) (s : List Char) :
    (s.dropWhile p).length ≤ s.length := by
  induction s with
  | nil => simp [List.dropWhile]
  | cons c rest ih =>
    simp only [List.dropWhile]
    split
    · exact Nat.le_succ_of_le ih
    · simp

theorem stripChars_length_le (s : List Char) : (stripChars s).length ≤ s.length := by
  unfold stripChars
  calc ((s.dropWhile isSpaceChar).reverse.dropWhile isSpaceChar).reverse.length
      = ((s.dropWhile isSpaceChar).reverse.dropWhile isSpaceChar).length :=
        List.length_reverse _
    _ ≤ (s.dropWhile isSpaceChar).reverse.length := dropWhile_length_le _ _
    _ = (s.dropWhile isSpaceChar).length := List.length_reverse _
    _ ≤ s.length := dropWhile_length_le _ _

/-- The `summary LIKE ? OR location LIKE ?` test, in propositional form. -/
theorem likeRow_eq_true_iff {q : List Char} {m : Meeting} :
    likeRow q m = true ↔
      containsSub (q.map asciiLower) (m.summary.map asciiLower) = true
      ∨ ∃ lc, m.location = some lc ∧
          containsSub (q.map asciiLower) (lc.map asciiLower) = true := by
  unfold likeRow sqliteLikeContains
  rcases hl : m.location with _ | lc
  · simp [hl]
  · simp [hl]

/-! ### Claim theorems -/

/-- C1: evaluation of the resolver at the failing input.  The spec maps
"послезавтра" (day-after-tomorrow) to referenceNow's date + 2 days, but the
code's `"завтра" in lower_query` containment test also fires on the
substring "завтра" inside "послезавтра", so the dedicated `elif
"послезавтра"` branch is unreachable and the phrase resolves to
referenceNow + 1 day: with referenceNow 2025-06-10 the code yields
2025-06-11 where the spec demands 2025-06-12. -/
theorem poslezavtra_resolves_one_day_ahead :
    dateResolve ("послезавтра".data) ⟨2025, 6, 10⟩ = .ok (some (⟨2025, 6, 11⟩, none))
    ∧ addDays ⟨2025, 6, 10⟩ 1 = ⟨2025, 6, 11⟩
    ∧ addDays ⟨2025, 6, 10⟩ 2 = ⟨2025, 6, 12⟩ := by
  decide

/-- C10: the invalid-calendar-date guard exists only on the numeric `D.M`
path.  The named-month phrase "31 февраля" (day 31 of February) reaches the
unguarded `datetime(...)` construction and raises (the lookup errors),
while the equally invalid numeric phrase "31.02" is caught by the
`try/except ValueError` and degrades to a plain no-date lookup. -/
theorem named_month_invalid_date_raises :
    smart_get_meetings [] 1 (some ("31 февраля".data)) none none ⟨2025, 6, 10⟩ = .error ()
    ∧ smart_get_meetings [] 1 (some ("31.02".data)) none none ⟨2025, 6, 10⟩ = .ok [] := by
  decide

/-- C2 counterexample: in the phrase "8 ноября завтра" the detection
precedence picks the relative-day keyword "завтра" (the resolved date is
referenceNow + 1 = 2025-06-11), but the substring removed by the single
`re.sub(..., count=1)` is "8 ноября" — the leftmost date-like substring by
position — so the residual is "завтра" and not the "8 ноября" the claim's
removal-by-precedence rule would produce. -/
theorem removal_by_position_cx :
    dateResolve ("8 ноября завтра".data) ⟨2025, 6, 10⟩
      = .ok (some (⟨2025, 6, 11⟩, some ("завтра".data)))
    ∧ ("завтра".data : List Char) ≠ ("8 ноября".data) := by
  decide

/-- C2 amended: exactly one date-like substring is removed per phrase, and
it is the first match of the removal alternation by *position* in the
string (alternation order deciding only ties at the same position), not
the substring selected by the detection precedence. -/
theorem removed_substring_is_leftmost_match {s r : List Char}
    (h : removeFirstUnion s = some r) :
    ∃ i l, matchUnionAt (s.drop i) = some l ∧
      (∀ j, j < i → matchUnionAt (s.drop j) = none) ∧
      r = s.take i ++ s.drop (i + l) := by
  exact removeFirstUnion_spec h

/-- C2 witness: the phrase "8 ноября" has its unique date-like substring
(the whole phrase, matched at position 0 with length 8) removed. -/
theorem removed_substring_is_leftmost_match_witness :
    ∃ i l, matchUnionAt ((("8 ноября".data) : List Char).drop i) = some l ∧
      (∀ j, j < i → matchUnionAt ((("8 ноября".data) : List Char).drop j) = none) ∧
      ([] : List Char) = ("8 ноября".data).take i ++ ("8 ноября".data).drop (i + l) :=
  @removed_substring_is_leftmost_match ("8 ноября".data) [] (by decide)

/-- C8 counterexample: the phrase "31 декабря завтра" is recognized through
the relative-day keyword "завтра" (resolved date 2025-06-11), yet the
residual is "завтра" itself: the removal deleted the leftmost date-like
substring "31 декабря", not the first occurrence of the matched date
substring "завтра" (which survives into the residual). -/
theorem residual_keeps_matched_reference_cx :
    dateResolve ("31 декабря завтра".data) ⟨2025, 6, 10⟩
      = .ok (some (⟨2025, 6, 11⟩, some ("завтра".data)))
    ∧ containsSub ("завтра".data) ("31 декабря завтра".data) = true := by
  decide

/-- C8 amended: for every phrase with a recognized date reference, the
residual equals the lowercased input with the single leftmost match of the
date-pattern alternation removed (removed once, later occurrences kept) and
then stripped of surrounding whitespace; when nothing remains, the residual
is reported as absent (`none`), not as an empty string. -/
theorem residual_is_lowered_input_minus_first_match {q : List Char} {now t : Date}
    {res : Option (List Char)}
    (h : dateResolve q now = .ok (some (t, res))) :
    ∃ rem, removeFirstUnion (q.map ruLower) = some rem ∧
      res = if stripChars rem = [] then none else some (stripChars rem) := by
  unfold dateResolve at h
  dsimp only at h
  rcases hrt : resolveTarget (q.map ruLower) now with e | ot
  · rw [hrt] at h; cases h
  · rcases ot with _ | t'
    · rw [hrt] at h; cases h
    · rw [hrt] at h
      obtain ⟨rem, hrem⟩ := removeFirstUnion_isSome_of_resolve hrt
      refine ⟨rem, hrem, ?_⟩
      simp only [hrem, Option.getD_some, Except.ok.injEq, Option.some.injEq,
        Prod.mk.injEq] at h
      exact h.2.symm

/-- C8 witness: in "Кафе 8 ноября ноября" only the first occurrence of the
date phrase "8 ноября" is removed; the trailing bare "ноября" survives into
the residual "кафе  ноября". -/
theorem residual_is_lowered_input_minus_first_match_witness :
    ∃ rem, removeFirstUnion (("Кафе 8 ноября ноября".data).map ruLower) = some rem ∧
      (some ("кафе  ноября".data) : Option (List Char))
        = if stripChars rem = [] then none else some (stripChars rem) :=
  @residual_is_lowered_input_minus_first_match ("Кафе 8 ноября ноября".data)
    ⟨2025, 6, 10⟩ ⟨2025, 11, 8⟩ (some ("кафе  ноября".data)) (by decide)

/-- C9 counterexample: the substring filter is not case-insensitive for
Cyrillic letters.  The record titled "Лейсан" is not returned for the
filter "лейсан" (SQLite's `LIKE` folds case only in the ASCII range), even
though under Russian-alphabet case folding the filter text does occur in
the title. -/
theorem cyrillic_case_sensitive_cx :
    get_meetings [⟨1, "Лейсан".data, "2025-11-08T20:00:00".data, 30, none⟩] 1
      none none (some ("лейсан".data)) = []
    ∧ containsSub (("лейсан".data).map ruLower) (("Лейсан".data).map ruLower) = true := by
  decide

/-- C5: the year-inference rule, on both no-explicit-year paths.  When the
phrase (already lowercased) contains no relative-day keyword and the
named-month regex matches — or, named-month failing, the numeric `D.M`
regex matches — and the inferred date is valid, the resolver returns the
described day with year = current year when the resolved month index is
greater than or equal to referenceNow's month, and year = next year
otherwise. -/
theorem year_inference_rule :
    (∀ (lq : List Char) (now : Date) (d : Nat) (name : List Char),
      containsSub ("завтра".data) lq = false →
      containsSub ("сегодня".data) lq = false →
      containsSub ("послезавтра".data) lq = false →
      searchNamed lq = some (d, name) →
      isValidDate (if ruMonthsGet name now.month ≥ now.month then now.year else now.year + 1)
        (ruMonthsGet name now.month) d = true →
      resolveTarget lq now = .ok (some
        ⟨if ruMonthsGet name now.month ≥ now.month then now.year else now.year + 1,
         ruMonthsGet name now.month, d⟩))
    ∧ (∀ (lq : List Char) (now : Date) (d m : Nat),
      containsSub ("завтра".data) lq = false →
      containsSub ("сегодня".data) lq = false →
      containsSub ("послезавтра".data) lq = false →
      searchNamed lq = none →
      searchNum lq = some (d, m) →
      isValidDate (if m ≥ now.month then now.year else now.year + 1) m d = true →
      resolveTarget lq now
        = .ok (some ⟨if m ≥ now.month then now.year else now.year + 1, m, d⟩)) := by
  constructor
  · intro lq now d name h1 h2 h3 h4 h5
    unfold resolveTarget
    rw [if_neg (by simp [h1]), if_neg (by simp [h2]), if_neg (by simp [h3])]
    dsimp only
    rw [h4]
    dsimp only
    rw [if_pos h5]
  · intro lq now d m h1 h2 h3 h4 h5 h6
    unfold resolveTarget
    rw [if_neg (by simp [h1]), if_neg (by simp [h2]), if_neg (by simp [h3])]
    dsimp only
    rw [h4]
    dsimp only
    rw [h5]
    dsimp only
    rw [if_pos h6]

/-- C5 witness: with referenceNow = 2025-06-10, "8 ноября" resolves to
2025-11-08 (month 11 ≥ 6 keeps the current year) and "3 марта" resolves to
2026-03-03 (month 3 < 6 moves to the next year). -/
theorem year_inference_rule_witness :
    resolveTarget ("8 ноября".data) ⟨2025, 6, 10⟩ = .ok (some ⟨2025, 11, 8⟩)
    ∧ resolveTarget ("3 марта".data) ⟨2025, 6, 10⟩ = .ok (some ⟨2026, 3, 3⟩) :=
  ⟨year_inference_rule.1 ("8 ноября".data) ⟨2025, 6, 10⟩ 8 ("ноября".data)
      (by decide) (by decide) (by decide) (by decide) (by decide),
   year_inference_rule.1 ("3 марта".data) ⟨2025, 6, 10⟩ 3 ("марта".data)
      (by decide) (by decide) (by decide) (by decide) (by decide)⟩

/-- C6: a numeric `D.M` phrase naming an invalid calendar date yields no
date reference: the whole lookup neither fails nor filters by date, it
returns exactly what a lookup with no recognized date phrase would (original
time bounds and the unmodified query text as substring filter). -/
theorem invalid_numeric_date_is_no_match (store : List Meeting) (user_id : Nat)
    (q : List Char) (time_min time_max : Option (List Char)) (now : Date) (d m : Nat)
    (h1 : containsSub ("завтра".data) (q.map ruLower) = false)
    (h2 : containsSub ("сегодня".data) (q.map ruLower) = false)
    (h3 : containsSub ("послезавтра".data) (q.map ruLower) = false)
    (h4 : searchNamed (q.map ruLower) = none)
    (h5 : searchNum (q.map ruLower) = some (d, m))
    (h6 : isValidDate (if m ≥ now.month then now.year else now.year + 1) m d = false) :
    smart_get_meetings store user_id (some q) time_min time_max now
      = .ok (get_meetings store user_id time_min time_max (some q)) := by
  have hq : q ≠ [] := by
    intro hqe
    rw [hqe] at h5
    have hnone : searchNum (List.map ruLower []) = none := rfl
    rw [hnone] at h5
    cases h5
  have hrt : resolveTarget (q.map ruLower) now = .ok none := by
    unfold resolveTarget
    rw [if_neg (by simp [h1]), if_neg (by simp [h2]), if_neg (by simp [h3])]
    dsimp only
    rw [h4]
    dsimp only
    rw [h5]
    dsimp only
    rw [if_neg (by simp [h6])]
  simp only [smart_get_meetings]
  rw [if_neg hq, hrt]

/-- C6 witness: "встреча 31.04" names day 31 of April (30 days; with
referenceNow 2025-06-10 the inferred year is 2026), so the lookup behaves
exactly like a date-free lookup with the full phrase as substring filter. -/
theorem invalid_numeric_date_is_no_match_witness :
    smart_get_meetings [] 1 (some ("встреча 31.04".data)) none none ⟨2025, 6, 10⟩
      = .ok (get_meetings [] 1 none none (some ("встреча 31.04".data))) :=
  invalid_numeric_date_is_no_match [] 1 ("встреча 31.04".data) none none ⟨2025, 6, 10⟩ 31 4
    (by decide) (by decide) (by decide) (by decide) (by decide) (by decide)

/-- C7: when a date reference is resolved from the query text, the day
interval `[midnight target, midnight (target + 1 day))` replaces the
caller-supplied `time_min`/`time_max` entirely and the residual becomes the
substring filter; the residual, when present, is strictly shorter than the
raw query text, so the descriptor never carries the caller's original
unprocessed query text together with a resolved-date interval. -/
theorem resolved_date_replaces_bounds_and_query (store : List Meeting) (user_id : Nat)
    (q : List Char) (time_min time_max : Option (List Char)) (now : Date) (t : Date)
    (res : Option (List Char))
    (h : dateResolve q now = .ok (some (t, res))) :
    smart_get_meetings store user_id (some q) time_min time_max now
      = .ok (get_meetings store user_id (some (fmtMidnight t))
              (some (fmtMidnight (nextDay t))) res)
    ∧ ∀ r, res = some r → r.length < q.length ∧ r ≠ q := by
  have hq : q ≠ [] := by
    intro hqe
    rw [hqe] at h
    have hnil : dateResolve ([] : List Char) now = .ok none := rfl
    rw [hnil] at h
    cases h
  unfold dateResolve at h
  dsimp only at h
  rcases hrt : resolveTarget (q.map ruLower) now with e | ot
  · rw [hrt] at h; cases h
  · rcases ot with _ | t'
    · rw [hrt] at h; cases h
    · rw [hrt] at h
      simp only [Except.ok.injEq, Option.some.injEq, Prod.mk.injEq] at h
      obtain ⟨ht, hres⟩ := h
      subst ht
      constructor
      · simp only [smart_get_meetings]
        rw [if_neg hq, hrt, hres]
      · intro r hr
        obtain ⟨rem, hrem⟩ := removeFirstUnion_isSome_of_resolve hrt
        rw [hrem] at hres
        simp only [Option.getD_some] at hres
        rw [hr] at hres
        by_cases hst : stripChars rem = []
        · rw [if_pos hst] at hres; cases hres
        · rw [if_neg hst] at hres
          injection hres with hres'
          have hlen1 : r.length ≤ rem.length := by
            rw [← hres']; exact stripChars_length_le rem
          have hlen2 : rem.length < (q.map ruLower).length := removeFirstUnion_length hrem
          rw [List.length_map] at hlen2
          refine ⟨by omega, fun hrq => ?_⟩
          rw [hrq] at hlen1
          omega

/-- C7 witness: "кофе завтра" with referenceNow 2025-06-10 resolves to the
day interval of 2025-06-11 and the residual substring filter "кофе",
overriding the caller-supplied bounds; the residual is shorter than the raw
query and differs from it. -/
theorem resolved_date_replaces_bounds_and_query_witness :
    (smart_get_meetings [] 1 (some ("кофе завтра".data))
        (some ("2000-01-01T00:00:00".data)) (some ("2099-01-01T00:00:00".data)) ⟨2025, 6, 10⟩
      = .ok (get_meetings [] 1 (some (fmtMidnight ⟨2025, 6, 11⟩))
              (some (fmtMidnight (nextDay ⟨2025, 6, 11⟩))) (some ("кофе".data))))
    ∧ ("кофе".data : List Char).length < ("кофе завтра".data : List Char).length
    ∧ ("кофе".data : List Char) ≠ ("кофе завтра".data : List Char) := by
  have h := resolved_date_replaces_bounds_and_query [] 1 ("кофе завтра".data)
    (some ("2000-01-01T00:00:00".data)) (some ("2099-01-01T00:00:00".data)) ⟨2025, 6, 10⟩
    ⟨2025, 6, 11⟩ (some ("кофе".data)) (by decide)
  obtain ⟨h1, h2⟩ := h
  obtain ⟨h3, h4⟩ := h2 ("кофе".data) rfl
  exact ⟨h1, h3, h4⟩

/-- C3: the zero/one/many candidate-resolution policy shared by the
update-summary and update-location actions.  Zero candidates: not-found and
the store is unchanged.  Exactly one: the mutation is applied precisely to
the rows carrying the candidate's natural key (owner, title, start time).
Two or more: the full candidate list is handed back in ascending start-time
order and the store is unchanged. -/
theorem candidate_policy_for_updates (store : List Meeting) (user_id : Nat)
    (q new_summary loc : List Char) (now : Date) (ms : List Meeting)
    (h : smart_get_meetings store user_id (some q) none none now = .ok ms) :
    (ms = [] →
      update_meeting_summary store user_id q new_summary now = .ok (false, none, store)
      ∧ update_location_flow store user_id q loc now = .ok (UpdateOutcome.notFound, store))
    ∧ (∀ m0, ms = [m0] →
      update_meeting_summary store user_id q new_summary now
        = .ok (true, none, store.map (fun m =>
            if m.user_id == user_id && m.summary == m0.summary
                && m.start_time == m0.start_time
            then { m with summary := new_summary } else m))
      ∧ update_location_flow store user_id q loc now
        = .ok (UpdateOutcome.updated m0, store.map (fun m =>
            if m.user_id == user_id && m.summary == m0.summary
                && m.start_time == m0.start_time
            then { m with location := some loc } else m)))
    ∧ (2 ≤ ms.length →
      update_meeting_summary store user_id q new_summary now = .ok (false, some ms, store)
      ∧ update_location_flow store user_id q loc now = .ok (UpdateOutcome.ambiguous ms, store)
      ∧ ms.Pairwise startLe) := by
  refine ⟨?_, ?_, ?_⟩
  · rintro rfl
    exact ⟨by unfold update_meeting_summary; rw [h],
           by unfold update_location_flow; rw [h]⟩
  · rintro m0 rfl
    exact ⟨by unfold update_meeting_summary; rw [h],
           by unfold update_location_flow; rw [h]⟩
  · intro hlen
    rcases ms with _ | ⟨a, ms'⟩
    · simp only [List.length_nil] at hlen; omega
    · rcases ms' with _ | ⟨b, rest⟩
      · simp only [List.length_cons, List.length_nil] at hlen; omega
      · exact ⟨by unfold update_meeting_summary; rw [h],
               by unfold update_location_flow; rw [h],
               smart_get_meetings_sorted h⟩

/-- Sample rows used by concrete witnesses: two meetings of the same owner
whose titles share the substring "Регина", with distinct start times. -/
def sampleEarly : Meeting :=
  ⟨1, "С Регина 8 ноября".data, "2025-11-08T20:00:00".data, 30, none⟩

/-- The later-starting of the two sample meetings. -/
def sampleLate : Meeting :=
  ⟨1, "С Регина декабрь".data, "2025-12-01T10:00:00".data, 30, some ("Уфа".data)⟩

/-- C3 witness: for the owner's two "Регина" meetings the query "Регина" is
ambiguous: both update actions report the full ascending candidate list and
leave the store untouched. -/
theorem candidate_policy_for_updates_witness :
    update_meeting_summary [sampleEarly, sampleLate] 1 ("Регина".data) ("Новое имя".data)
        ⟨2025, 6, 10⟩
      = .ok (false, some [sampleEarly, sampleLate], [sampleEarly, sampleLate])
    ∧ update_location_flow [sampleEarly, sampleLate] 1 ("Регина".data) ("Казань".data)
        ⟨2025, 6, 10⟩
      = .ok (UpdateOutcome.ambiguous [sampleEarly, sampleLate], [sampleEarly, sampleLate])
    ∧ ([sampleEarly, sampleLate] : List Meeting).Pairwise startLe :=
  (candidate_policy_for_updates [sampleEarly, sampleLate] 1 ("Регина".data)
    ("Новое имя".data) ("Казань".data) ⟨2025, 6, 10⟩ [sampleEarly, sampleLate]
    (by decide)).2.2 (by decide)

/-- C4: the routing lookup never reports ambiguity (its result type carries
no ambiguous case).  Whenever its first tier returns a record, that record's
start time is greatest among all of the owner's substring matches and the
route uses it; only when the first tier returns nothing does the flow fall
back to the date-resolver pipeline and take the head of the ascending
candidate list. -/
theorem routing_lookup_latest_then_fallback (store : List Meeting) (user_id : Nat)
    (q : List Char) (now : Date) :
    (∀ e, find_meeting_by_query store user_id q = some e →
      route_flow store user_id q now = .ok (some e)
      ∧ ∀ m ∈ store, (m.user_id == user_id && likeRow q m) = true →
          leLex m.start_time e.start = true)
    ∧ (find_meeting_by_query store user_id q = none →
      ∀ ms, smart_get_meetings store user_id (some q) none none now = .ok ms →
        route_flow store user_id q now
          = .ok (match ms with | [] => none | m :: _ => some (toEvent m))
        ∧ ms.Pairwise startLe) := by
  constructor
  · intro e he
    refine ⟨by unfold route_flow; rw [he], ?_⟩
    intro m hm hpred
    unfold find_meeting_by_query at he
    rcases hs : (store.filter (fun m => m.user_id == user_id && likeRow q m)).insertionSort startGe
      with _ | ⟨m0, rest⟩
    · rw [hs] at he; cases he
    · rw [hs] at he
      injection he with he'
      have hmem : m ∈ (store.filter
          (fun m => m.user_id == user_id && likeRow q m)).insertionSort startGe := by
        rw [List.mem_insertionSort, List.mem_filter]
        exact ⟨hm, hpred⟩
      rw [hs] at hmem
      have hsorted := List.sorted_insertionSort startGe
        (store.filter (fun m => m.user_id == user_id && likeRow q m))
      rw [hs] at hsorted
      rcases List.mem_cons.mp hmem with rfl | hmem'
      · rw [← he']; exact leLex_refl _
      · rw [← he']
        exact List.rel_of_sorted_cons hsorted m hmem'
  · intro hn ms hms
    refine ⟨?_, smart_get_meetings_sorted hms⟩
    unfold route_flow
    rw [hn, hms]
    rcases ms with _ | ⟨a, rest⟩ <;> rfl

/-- C4 witness: both sample meetings match "Регина", and the routing lookup
returns the December one — the later start time — with the earlier one
provably not after it. -/
theorem routing_lookup_latest_then_fallback_witness :
    route_flow [sampleEarly, sampleLate] 1 ("Регина".data) ⟨2025, 6, 10⟩
      = .ok (some (toEvent sampleLate))
    ∧ leLex sampleEarly.start_time (toEvent sampleLate).start = true := by
  have h := (routing_lookup_latest_then_fallback [sampleEarly, sampleLate] 1
    ("Регина".data) ⟨2025, 6, 10⟩).1 (toEvent sampleLate) (by decide)
  exact ⟨h.1, h.2 sampleEarly (by decide) (by decide)⟩

/-- C9 amended: a record matches a present (nonempty) substring filter if
and only if the filter text occurs as a contiguous substring of its title
or of its location under ASCII-only case folding — so matching is
case-insensitive for ASCII letters but case-sensitive for the Cyrillic
letters of the supported natural language. -/
theorem substring_filter_ascii_case_insensitive (store : List Meeting) (user_id : Nat)
    (time_min time_max : Option (List Char)) (q : List Char) (m : Meeting) (hq : q ≠ []) :
    m ∈ get_meetings store user_id time_min time_max (some q) ↔
      m ∈ store ∧ m.user_id = user_id
      ∧ (match time_min with
         | some t => (t = [] || leLex t m.start_time)
         | none => true) = true
      ∧ (match time_max with
         | some t => (t = [] || ltLex m.start_time t)
         | none => true) = true
      ∧ (containsSub (q.map asciiLower) (m.summary.map asciiLower) = true
         ∨ ∃ lc, m.location = some lc ∧
             containsSub (q.map asciiLower) (lc.map asciiLower) = true) := by
  rw [mem_get_meetings]
  unfold rowMatches
  simp only [Bool.and_eq_true, beq_iff_eq]
  constructor
  · rintro ⟨hmem, ⟨⟨⟨huid, ht1⟩, ht2⟩, hq'⟩⟩
    refine ⟨hmem, huid, ht1, ht2, ?_⟩
    rcases Bool.or_eq_true_iff.mp hq' with hempty | hlike
    · exact absurd (by simpa using hempty) hq
    · exact likeRow_eq_true_iff.mp hlike
  · rintro ⟨hmem, huid, ht1, ht2, hq'⟩
    refine ⟨hmem, ⟨⟨⟨huid, ht1⟩, ht2⟩, ?_⟩⟩
    exact Bool.or_eq_true_iff.mpr (Or.inr (likeRow_eq_true_iff.mpr hq'))

/-- A sample row with an ASCII location, for the C9 witness. -/
def sampleOffice : Meeting :=
  ⟨2, "Sync".data, "2025-07-01T09:00:00".data, 60, some ("Office 12".data)⟩

/-- C9 witness: the filter "OFFICE" matches the location "Office 12" —
ASCII letters are compared case-insensitively. -/
theorem substring_filter_ascii_case_insensitive_witness :
    sampleOffice ∈ get_meetings [sampleOffice] 2 none none (some ("OFFICE".data)) :=
  (substring_filter_ascii_case_insensitive [sampleOffice] 2 none none ("OFFICE".data)
    sampleOffice (by decide)).mpr
    ⟨by decide, rfl, rfl, rfl, Or.inr ⟨"Office 12".data, rfl, by decide⟩⟩

end AssistantBot
